import Mathlib

/-!
Verification of the sticker-customizer raster mask & cutline engine.

Shallow embedding of the algorithmic core of the repository:
alpha-based inside-mask extraction (flood fill), exact/approximate
morphological dilation, closing, bounding box, marching-squares contour
tracing, Ramer-Douglas-Peucker simplification, DPI validation, and the
sizing policies (minimum edge, catalog snapping).

JavaScript `Uint8Array` masks are modelled as `List Bool` in row-major
order; machine numbers used in purely rational computations are modelled
as `ℚ`.  Sources: `src/unnamed/part_006`, `src/frontend/StickerCanvasClient.jsx`,
`src/app/routes/apps.sticker-configurator.sticker.export.jsx`.
-/

/-- A binary mask, one Bool per pixel, row-major (`idx = y*w + x`),
modelling the `Uint8Array` masks of the source. -/
abbrev Mask := List Bool

/-- Read pixel `(x, y)` of a mask of width `w` (as `mask[y*w+x]` in the source;
out-of-range reads default to `false`). -/
def maskGet (m : Mask) (w : Nat) (x y : Nat) : Bool :=
  m.getD (y * w + x) false

/-- An integer whose square is below the square of a nonnegative integer is
below that integer. -/
theorem int_le_of_sq_le_sq {s t : Int} (ht : 0 ≤ t) (h : s * s ≤ t * t) : s ≤ t := by
  by_contra hlt
  push_neg at hlt
  have hst : 0 < s + t := by linarith
  have hpos := mul_pos (sub_pos.mpr hlt) hst
  nlinarith [hpos]

/-- Row-major index of an in-bounds pixel is in range. -/
theorem grid_idx_lt {x y w h : Nat} (hx : x < w) (hy : y < h) :
    y * w + x < w * h := by
  calc y * w + x < y * w + w := Nat.add_lt_add_left hx _
    _ = (y + 1) * w := (Nat.succ_mul y w).symm
    _ ≤ h * w := Nat.mul_le_mul_right w hy
    _ = w * h := Nat.mul_comm h w

-- ==============================
-- Sizing policies (source: part_006 lines 303-316, StickerCanvasClient.jsx 241-254)
-- ==============================

/-- `const MIN_EDGE_MM = 40` -/
def MIN_EDGE_MM : ℚ := 40

/-- `const MIN_EDGE_CM = MIN_EDGE_MM / 10` -/
def MIN_EDGE_CM : ℚ := MIN_EDGE_MM / 10

/-- Result record of `enforceMinEdgeCm` (`{ wCm, hCm, scaled, k }`). -/
structure MinEdgeResult where
  wCm : ℚ
  hCm : ℚ
  scaled : Bool
  k : ℚ
deriving Repr, DecidableEq

/-- `enforceMinEdgeCm(wCm, hCm, minCm = MIN_EDGE_CM)`: smallest side is scaled
up to `minCm` proportionally; non-positive inputs fall back to `minCm × minCm`. -/
def enforceMinEdgeCm (wCm hCm : ℚ) (minCm : ℚ := MIN_EDGE_CM) : MinEdgeResult :=
  let w := wCm
  let h := hCm
  if ¬ (0 < w) ∨ ¬ (0 < h) then
    { wCm := minCm, hCm := minCm, scaled := true, k := 1 }
  else
    let minSide := min w h
    if minCm ≤ minSide then { wCm := w, hCm := h, scaled := false, k := 1 }
    else
      let k := minCm / minSide
      { wCm := w * k, hCm := h * k, scaled := true, k := k }

-- ==============================
-- Resolution validator (source: part_006 lines 108-128, 1279-1291)
-- ==============================

/-- `cmToInch(cm) = cm / 2.54` -/
def cmToInch (cm : ℚ) : ℚ := cm / (254 / 100)

/-- `calcEffectiveDpi({imgPxW, imgPxH, targetCmW, targetCmH})`:
`min(imgPxW / wIn, imgPxH / hIn)` with each inch value clamped below by `1e-9`. -/
def calcEffectiveDpi (imgPxW imgPxH targetCmW targetCmH : ℚ) : ℚ :=
  let wIn := max (1 / 1000000000) (cmToInch targetCmW)
  let hIn := max (1 / 1000000000) (cmToInch targetCmH)
  let dpiX := imgPxW / wIn
  let dpiY := imgPxH / hIn
  min dpiX dpiY

/-- `const MIN_DPI = 180` -/
def MIN_DPI : ℚ := 180

/-- The DPI gate at the head of `ensureSvgExportForCart` (part_006 lines
1279-1291): computes the effective DPI and throws (modelled as `Except.error`)
when it is below `MIN_DPI`; otherwise the export proceeds (`Except.ok`). -/
def ensureSvgExportForCartDpiGate (imgPxW imgPxH effWcm effHcm : ℚ) : Except String Unit :=
  let effectiveDpi := calcEffectiveDpi imgPxW imgPxH effWcm effHcm
  if effectiveDpi < MIN_DPI then
    Except.error ("Bildaufloesung zu gering. Minimum: 180 DPI.")
  else
    Except.ok ()

/-- The effective-DPI formula exactly as the specification words it:
`min(imagePxWidth / targetWidthInches, imagePxHeight / targetHeightInches)`,
inches = cm / 2.54 (no clamping).  Used to compare code against spec. -/
def specEffectiveDpi (imgPxW imgPxH targetCmW targetCmH : ℚ) : ℚ :=
  min (imgPxW / (targetCmW / (254 / 100))) (imgPxH / (targetCmH / (254 / 100)))

-- ==============================
-- Bounding box (source: part_006 lines 977-994, export.jsx 835-852)
-- ==============================

/-- Bounding box record `{minX, minY, maxX, maxY}`; `Int` because the
running maxima start at `-1` in the source. -/
structure BBox where
  minX : Int
  minY : Int
  maxX : Int
  maxY : Int
deriving Repr, DecidableEq

/-- Row-major list of all pixel coordinates of a `w × h` canvas
(the double `for` loop of the source). -/
def gridPoints (w h : Nat) : List (Nat × Nat) :=
  (List.range h).flatMap (fun y => (List.range w).map (fun x => (x, y)))

/-- One iteration of the `maskBBox` scan: widen the running min/max when the
pixel is set (`if (x < minX) minX = x; ...` in the source). -/
def bboxStep (mask : Mask) (w : Nat) (bb : BBox) (p : Nat × Nat) : BBox :=
  if maskGet mask w p.1 p.2 then
    { minX := min bb.minX (p.1 : Int), minY := min bb.minY (p.2 : Int),
      maxX := max bb.maxX (p.1 : Int), maxY := max bb.maxY (p.2 : Int) }
  else bb

/-- `maskBBox(mask, w, h)`: running min/max over set pixels, starting from
`(w, h, -1, -1)`; if no pixel is set the full-canvas box is returned. -/
def maskBBox (mask : Mask) (w h : Nat) : BBox :=
  let res := (gridPoints w h).foldl (bboxStep mask w)
    { minX := (w : Int), minY := (h : Int), maxX := -1, maxY := -1 }
  if res.maxX < 0 then
    { minX := 0, minY := 0, maxX := (w : Int) - 1, maxY := (h : Int) - 1 }
  else res

theorem mem_gridPoints {w h : Nat} {p : Nat × Nat} :
    p ∈ gridPoints w h ↔ p.1 < w ∧ p.2 < h := by
  cases p with
  | mk x y =>
    simp [gridPoints, List.mem_flatMap, List.mem_map, List.mem_range]
    constructor
    · rintro ⟨y0, hy0, x0, hx0, hx, hy⟩
      subst hx; subst hy; exact ⟨hx0, hy0⟩
    · rintro ⟨hx, hy⟩
      exact ⟨y, hy, x, hx, rfl, rfl⟩

theorem bboxStep_foldl_const (mask : Mask) (w : Nat) (l : List (Nat × Nat))
    (bb : BBox) (hall : ∀ p ∈ l, maskGet mask w p.1 p.2 = false) :
    l.foldl (bboxStep mask w) bb = bb := by
  induction l generalizing bb with
  | nil => rfl
  | cons a t ih =>
    have ha : maskGet mask w a.1 a.2 = false := hall a (by simp)
    simp only [List.foldl_cons, bboxStep, ha, Bool.false_eq_true, if_false]
    exact ih bb (fun p hp => hall p (by simp [hp]))

/-- C9: for every `w×h` mask with no set pixel, `maskBBox` returns the
full-canvas box `{minX: 0, minY: 0, maxX: w-1, maxY: h-1}`. -/
theorem maskBBox_empty_full_canvas (mask : Mask) (w h : Nat)
    (hempty : ∀ x y, x < w → y < h → maskGet mask w x y = false) :
    maskBBox mask w h =
      { minX := 0, minY := 0, maxX := (w : Int) - 1, maxY := (h : Int) - 1 } := by
  have h1 : (gridPoints w h).foldl (bboxStep mask w)
      { minX := (w : Int), minY := (h : Int), maxX := -1, maxY := -1 } =
      ({ minX := (w : Int), minY := (h : Int), maxX := -1, maxY := -1 } : BBox) :=
    bboxStep_foldl_const mask w _ _ (fun p hp => by
      have := mem_gridPoints.mp hp
      exact hempty p.1 p.2 this.1 this.2)
  simp [maskBBox, h1]

/-- Witness for C9: the all-false 2×2 mask yields the full-canvas box. -/
theorem maskBBox_empty_full_canvas_witness :
    maskBBox [false, false, false, false] 2 2 =
      { minX := 0, minY := 0, maxX := 1, maxY := 1 } := by
  have h := maskBBox_empty_full_canvas [false, false, false, false] 2 2
    (fun x y hx hy => by interval_cases x <;> interval_cases y <;> rfl)
  simpa using h

/-- C7: minimum-edge enforcement: the output always has both sides at least
4 cm; for strictly positive inputs the aspect ratio is preserved and for
non-positive inputs the result is exactly 4×4; input `(5, 3)` scales by
`4/3` to `(20/3, 4)`. -/
theorem enforceMinEdgeCm_spec (w h : ℚ) :
    (4 ≤ (enforceMinEdgeCm w h).wCm ∧ 4 ≤ (enforceMinEdgeCm w h).hCm) ∧
    (0 < w → 0 < h →
      (enforceMinEdgeCm w h).wCm / (enforceMinEdgeCm w h).hCm = w / h) ∧
    (¬ (0 < w) ∨ ¬ (0 < h) →
      (enforceMinEdgeCm w h).wCm = 4 ∧ (enforceMinEdgeCm w h).hCm = 4) ∧
    enforceMinEdgeCm 5 3 = { wCm := 20 / 3, hCm := 4, scaled := true, k := 4 / 3 } := by
  have hmin : MIN_EDGE_CM = 4 := by norm_num [MIN_EDGE_CM, MIN_EDGE_MM]
  refine ⟨?_, ?_, ?_, ?_⟩
  · simp only [enforceMinEdgeCm]
    rw [hmin]
    split_ifs with h1 h2
    · exact ⟨le_refl _, le_refl _⟩
    · exact ⟨le_trans h2 (min_le_left _ _), le_trans h2 (min_le_right _ _)⟩
    · push_neg at h1 h2
      obtain ⟨hw, hh⟩ := h1
      have hmpos : 0 < min w h := lt_min hw hh
      have key : min w h * (4 / min w h) = 4 := by field_simp
      constructor
      · show (4 : ℚ) ≤ w * (4 / min w h)
        calc (4 : ℚ) = min w h * (4 / min w h) := key.symm
          _ ≤ w * (4 / min w h) :=
            mul_le_mul_of_nonneg_right (min_le_left w h) (by positivity)
      · show (4 : ℚ) ≤ h * (4 / min w h)
        calc (4 : ℚ) = min w h * (4 / min w h) := key.symm
          _ ≤ h * (4 / min w h) :=
            mul_le_mul_of_nonneg_right (min_le_right w h) (by positivity)
  · intro hw hh
    simp only [enforceMinEdgeCm]
    rw [hmin]
    split_ifs with h1 h2
    · cases h1 with
      | inl hc => exact absurd hw hc
      | inr hc => exact absurd hh hc
    · rfl
    · push_neg at h1
      have hmpos : 0 < min w h := lt_min hw hh
      show w * (4 / min w h) / (h * (4 / min w h)) = w / h
      rw [mul_div_mul_right]
      positivity
  · intro hnp
    simp only [enforceMinEdgeCm]
    rw [if_pos hnp]
    exact ⟨hmin, hmin⟩
  · simp only [enforceMinEdgeCm]
    rw [hmin]
    rw [if_neg (by norm_num)]
    rw [if_neg (by norm_num [min_def])]
    have h3 : min (5 : ℚ) 3 = 3 := by norm_num [min_def]
    rw [h3]
    norm_num

/-- Witness for C7: aspect preservation instantiated at the positive input
`(5, 3)`. -/
theorem enforceMinEdgeCm_spec_witness :
    (enforceMinEdgeCm 5 3).wCm / (enforceMinEdgeCm 5 3).hCm = 5 / 3 :=
  (enforceMinEdgeCm_spec 5 3).2.1 (by norm_num) (by norm_num)

theorem div_lt_180_clamp_iff (a b : ℚ) (ha : 0 ≤ a) (hone : a = 0 ∨ 1 ≤ a)
    (hb : 0 < b) :
    a / max (1 / 1000000000) b < 180 ↔ a / b < 180 := by
  rcases le_or_lt (1 / 1000000000 : ℚ) b with hcase | hcase
  · rw [max_eq_right hcase]
  · rw [max_eq_left (le_of_lt hcase)]
    rcases hone with h0 | h1
    · subst h0
      simp [zero_div]
    · have hbig1 : ¬ (a / (1 / 1000000000) < 180) := by
        rw [not_lt]
        have e1 : a / (1 / 1000000000) = a * 1000000000 := by ring
        rw [e1]
        nlinarith [h1]
      have hbig2 : ¬ (a / b < 180) := by
        rw [not_lt, le_div_iff₀ hb]
        calc (180 : ℚ) * b ≤ 180 * (1 / 1000000000) := by
              exact mul_le_mul_of_nonneg_left (le_of_lt hcase) (by norm_num)
          _ ≤ 1 := by norm_num
          _ ≤ a := h1
      exact iff_of_false hbig1 hbig2

/-- C6: with strictly positive target dimensions and natural-number image
pixel dimensions, the export gate of `ensureSvgExportForCart` aborts with an
error exactly when the spec effective DPI
`min(imgPxW / (targetWcm/2.54), imgPxH / (targetHcm/2.54))` is strictly below
180, and otherwise (including the 180-240 warning band) proceeds. -/
theorem ensureSvgExportForCart_dpi_gate (imgPxW imgPxH : ℕ) (twCm thCm : ℚ)
    (htw : 0 < twCm) (hth : 0 < thCm) :
    ((∃ e, ensureSvgExportForCartDpiGate (imgPxW : ℚ) (imgPxH : ℚ) twCm thCm =
        Except.error e) ↔
      specEffectiveDpi (imgPxW : ℚ) (imgPxH : ℚ) twCm thCm < 180) ∧
    (¬ specEffectiveDpi (imgPxW : ℚ) (imgPxH : ℚ) twCm thCm < 180 →
      ensureSvgExportForCartDpiGate (imgPxW : ℚ) (imgPxH : ℚ) twCm thCm =
        Except.ok ()) := by
  have hone : ∀ n : ℕ, ((n : ℚ) = 0 ∨ 1 ≤ (n : ℚ)) := by
    intro n
    cases n with
    | zero => left; norm_num
    | succ m => right; exact_mod_cast Nat.succ_le_succ (Nat.zero_le m)
  have hw : 0 < cmToInch twCm := by
    unfold cmToInch; positivity
  have hh : 0 < cmToInch thCm := by
    unfold cmToInch; positivity
  have hX := div_lt_180_clamp_iff (imgPxW : ℚ) (cmToInch twCm)
    (by positivity) (hone imgPxW) hw
  have hY := div_lt_180_clamp_iff (imgPxH : ℚ) (cmToInch thCm)
    (by positivity) (hone imgPxH) hh
  have hkey : calcEffectiveDpi (imgPxW : ℚ) (imgPxH : ℚ) twCm thCm < 180 ↔
      specEffectiveDpi (imgPxW : ℚ) (imgPxH : ℚ) twCm thCm < 180 := by
    unfold calcEffectiveDpi specEffectiveDpi cmToInch
    unfold cmToInch at hX hY
    simp only [min_lt_iff]
    rw [hX, hY]
  have hmd : MIN_DPI = 180 := rfl
  constructor
  · constructor
    · rintro ⟨e, he⟩
      rw [← hkey]
      by_contra hnot
      unfold ensureSvgExportForCartDpiGate at he
      rw [hmd, if_neg hnot] at he
      exact Except.noConfusion he
    · intro hlt
      rw [← hkey] at hlt
      refine ⟨("Bildaufloesung zu gering. Minimum: 180 DPI."), ?_⟩
      unfold ensureSvgExportForCartDpiGate
      rw [hmd, if_pos hlt]
  · intro hge
    rw [← hkey] at hge
    unfold ensureSvgExportForCartDpiGate
    rw [hmd, if_neg hge]

/-- Witness for C6: a 1200×1200 px image at 10cm×10cm has effective DPI
304.8 ≥ 180, so the gate lets the export proceed. -/
theorem ensureSvgExportForCart_dpi_gate_witness :
    ensureSvgExportForCartDpiGate (1200 : ℚ) (1200 : ℚ) 10 10 = Except.ok () := by
  have h := (ensureSvgExportForCart_dpi_gate 1200 1200 10 10
    (by norm_num) (by norm_num)).2
  have hspec : ¬ specEffectiveDpi ((1200 : ℕ) : ℚ) ((1200 : ℕ) : ℚ) 10 10 < 180 := by
    unfold specEffectiveDpi
    norm_num [min_def]
  have := h hspec
  simpa using this

-- ==============================
-- Morphology (source: part_006 lines 737-757 and 854-883,
-- StickerCanvasClient.jsx lines 631-679)
-- ==============================

/-- `invertMask(mask)`: flip every pixel. -/
def invertMask (m : Mask) : Mask := m.map (fun b => !b)

/-- The integer offsets of the dilation disc: all `(dx, dy)` with
`dx*dx + dy*dy ≤ r*r`, enumerated `dy` outer / `dx` inner as in the source. -/
def discOffsets (r : Nat) : List (Int × Int) :=
  (List.range (2 * r + 1)).flatMap (fun (j : Nat) =>
    (List.range (2 * r + 1)).filterMap (fun (i : Nat) =>
      if ((i : Int) - (r : Int)) * ((i : Int) - (r : Int)) +
          ((j : Int) - (r : Int)) * ((j : Int) - (r : Int)) ≤
          (r : Int) * (r : Int) then
        some ((i : Int) - (r : Int), (j : Int) - (r : Int))
      else none))

/-- Output pixel of the exact dilation: set when some disc offset reaches it
from an in-bounds set source pixel (the inner loops of `dilateMaskExact`,
read from the output side). -/
def dilatePixel (m : Mask) (w h r : Nat) (nx ny : Nat) : Bool :=
  (discOffsets r).any (fun d =>
    decide (0 ≤ (nx : Int) - d.1) && decide ((nx : Int) - d.1 < (w : Int)) &&
    decide (0 ≤ (ny : Int) - d.2) && decide ((ny : Int) - d.2 < (h : Int)) &&
    maskGet m w ((nx : Int) - d.1).toNat ((ny : Int) - d.2).toNat)

/-- `dilateMaskExact(mask, w, h, radiusPx)`: disc-offset dilation clipped to
the canvas; radius `0` returns the mask unchanged (`if (r <= 0) return mask`). -/
def dilateMaskExact (m : Mask) (w h : Nat) (r : Nat) : Mask :=
  if r = 0 then m
  else (List.range (w * h)).map (fun idx => dilatePixel m w h r (idx % w) (idx / w))

/-- `erodeMaskExact(mask, w, h, r) = invert(dilate(invert(mask), r))`. -/
def erodeMaskExact (m : Mask) (w h : Nat) (r : Nat) : Mask :=
  invertMask (dilateMaskExact (invertMask m) w h r)

/-- `closeMaskExact(mask, w, h, radiusPx)`: dilate then erode; radius `0`
returns the mask unchanged. -/
def closeMaskExact (m : Mask) (w h : Nat) (r : Nat) : Mask :=
  if r = 0 then m
  else erodeMaskExact (dilateMaskExact m w h r) w h r

theorem mem_discOffsets {r : Nat} {d : Int × Int} :
    d ∈ discOffsets r ↔ d.1 * d.1 + d.2 * d.2 ≤ (r : Int) * (r : Int) := by
  constructor
  · intro hd
    simp only [discOffsets, List.mem_flatMap, List.mem_filterMap, List.mem_range] at hd
    obtain ⟨j, hj, i, hi, hif⟩ := hd
    by_cases hc : ((i : Int) - (r : Int)) * ((i : Int) - (r : Int)) +
        ((j : Int) - (r : Int)) * ((j : Int) - (r : Int)) ≤ (r : Int) * (r : Int)
    · rw [if_pos hc] at hif
      have := Option.some.inj hif
      rw [← this]
      exact hc
    · rw [if_neg hc] at hif
      exact Option.noConfusion hif
  · intro h
    have h1 : d.1 * d.1 ≤ (r : Int) * (r : Int) :=
      le_trans (le_add_of_nonneg_right (mul_self_nonneg d.2)) h
    have h2 : d.2 * d.2 ≤ (r : Int) * (r : Int) :=
      le_trans (le_add_of_nonneg_left (mul_self_nonneg d.1)) h
    have hb1 : -(r : Int) ≤ d.1 ∧ d.1 ≤ (r : Int) := by
      constructor <;> nlinarith
    have hb2 : -(r : Int) ≤ d.2 ∧ d.2 ≤ (r : Int) := by
      constructor <;> nlinarith
    unfold discOffsets
    refine List.mem_flatMap.mpr ⟨(d.2 + (r : Int)).toNat, ?_, ?_⟩
    · rw [List.mem_range]; omega
    · refine List.mem_filterMap.mpr ⟨(d.1 + (r : Int)).toNat, ?_, ?_⟩
      · rw [List.mem_range]; omega
      · have e1 : (((d.1 + (r : Int)).toNat : Int)) - (r : Int) = d.1 := by omega
        have e2 : (((d.2 + (r : Int)).toNat : Int)) - (r : Int) = d.2 := by omega
        simp only [e1, e2]
        rw [if_pos h]

theorem idx_fst {w x y : Nat} (hx : x < w) : (y * w + x) % w = x := by
  rw [Nat.add_comm, Nat.add_mul_mod_self_right]
  exact Nat.mod_eq_of_lt hx

theorem idx_snd {w x y : Nat} (hx : x < w) : (y * w + x) / w = y := by
  rw [Nat.add_comm, Nat.add_mul_div_right _ _ (lt_of_le_of_lt (Nat.zero_le x) hx)]
  rw [Nat.div_eq_of_lt hx]
  exact Nat.zero_add y

theorem maskGet_range_map {f : Nat → Bool} {w h x y : Nat} (hx : x < w) (hy : y < h) :
    maskGet ((List.range (w * h)).map f) w x y = f (y * w + x) := by
  unfold maskGet
  rw [List.getD_eq_getElem?_getD, List.getElem?_map,
    List.getElem?_range (grid_idx_lt hx hy)]
  rfl

theorem length_dilateMaskExact {m : Mask} {w h r : Nat} (hr : r ≠ 0) :
    (dilateMaskExact m w h r).length = w * h := by
  unfold dilateMaskExact
  rw [if_neg hr]
  simp

theorem maskGet_invertMask {m : Mask} {w x y : Nat} (hlen : y * w + x < m.length) :
    maskGet (invertMask m) w x y = !(maskGet m w x y) := by
  unfold maskGet invertMask
  rw [List.getD_eq_getElem?_getD, List.getD_eq_getElem?_getD, List.getElem?_map,
    List.getElem?_eq_getElem hlen]
  rfl

theorem maskGet_dilateMaskExact {m : Mask} {w h r x y : Nat} (hr : r ≠ 0)
    (hx : x < w) (hy : y < h) :
    maskGet (dilateMaskExact m w h r) w x y = dilatePixel m w h r x y := by
  unfold dilateMaskExact
  rw [if_neg hr, maskGet_range_map hx hy, idx_fst hx, idx_snd hx]

/-- Declarative reading of one output pixel of the exact dilation: it is set
exactly when some in-bounds set source pixel lies within Euclidean distance
`r`. -/
theorem dilatePixel_eq_true_iff {m : Mask} {w h r nx ny : Nat} :
    dilatePixel m w h r nx ny = true ↔
      ∃ sx sy : Nat, sx < w ∧ sy < h ∧ maskGet m w sx sy = true ∧
        ((nx : Int) - sx) * ((nx : Int) - sx) +
          ((ny : Int) - sy) * ((ny : Int) - sy) ≤ (r : Int) * (r : Int) := by
  unfold dilatePixel
  rw [List.any_eq_true]
  constructor
  · rintro ⟨d, hd, hcond⟩
    rw [mem_discOffsets] at hd
    simp only [Bool.and_eq_true, decide_eq_true_eq] at hcond
    obtain ⟨⟨⟨⟨h0x, hxw⟩, h0y⟩, hyh⟩, hm⟩ := hcond
    refine ⟨((nx : Int) - d.1).toNat, ((ny : Int) - d.2).toNat, by omega, by omega, hm, ?_⟩
    have e1 : (nx : Int) - ((((nx : Int) - d.1).toNat : Int)) = d.1 := by omega
    have e2 : (ny : Int) - ((((ny : Int) - d.2).toNat : Int)) = d.2 := by omega
    rw [e1, e2]
    exact hd
  · rintro ⟨sx, sy, hsx, hsy, hm, hdist⟩
    refine ⟨((nx : Int) - sx, (ny : Int) - sy), ?_, ?_⟩
    · rw [mem_discOffsets]
      exact hdist
    · simp only [Bool.and_eq_true, decide_eq_true_eq]
      have e1 : ((nx : Int) - ((nx : Int) - (sx : Int))).toNat = sx := by omega
      have e2 : ((ny : Int) - ((ny : Int) - (sy : Int))).toNat = sy := by omega
      refine ⟨⟨⟨⟨by omega, by omega⟩, by omega⟩, by omega⟩, ?_⟩
      show maskGet m w ((nx : Int) - ((nx : Int) - (sx : Int))).toNat
        ((ny : Int) - ((ny : Int) - (sy : Int))).toNat = true
      rw [e1, e2]
      exact hm

/-- C3: the closing operation is extensive (every pixel set in the input mask
is still set after `closeMaskExact` at any radius) and radius 0 is the
identity. -/
theorem closeMaskExact_extensive_and_id (m : Mask) (w h r x y : Nat)
    (hx : x < w) (hy : y < h) (hset : maskGet m w x y = true) :
    maskGet (closeMaskExact m w h r) w x y = true ∧ closeMaskExact m w h 0 = m := by
  refine ⟨?_, by unfold closeMaskExact; rw [if_pos rfl]⟩
  by_cases hr : r = 0
  · subst hr
    unfold closeMaskExact
    rw [if_pos rfl]
    exact hset
  · unfold closeMaskExact
    rw [if_neg hr]
    unfold erodeMaskExact
    have hlenA : (dilateMaskExact m w h r).length = w * h := length_dilateMaskExact hr
    have hlen2 :
        (dilateMaskExact (invertMask (dilateMaskExact m w h r)) w h r).length = w * h :=
      length_dilateMaskExact hr
    rw [maskGet_invertMask (by rw [hlen2]; exact grid_idx_lt hx hy)]
    rw [maskGet_dilateMaskExact hr hx hy]
    rw [Bool.not_eq_true']
    by_contra hcontra
    rw [Bool.not_eq_false] at hcontra
    rw [dilatePixel_eq_true_iff] at hcontra
    obtain ⟨sx, sy, hsx, hsy, hinv, hdist⟩ := hcontra
    rw [maskGet_invertMask (by rw [hlenA]; exact grid_idx_lt hsx hsy)] at hinv
    rw [Bool.not_eq_true'] at hinv
    have hA : maskGet (dilateMaskExact m w h r) w sx sy = true := by
      rw [maskGet_dilateMaskExact hr hsx hsy, dilatePixel_eq_true_iff]
      exact ⟨x, y, hx, hy, hset, by nlinarith [hdist]⟩
    rw [hA] at hinv
    exact Bool.noConfusion hinv

/-- Witness for C3: the pixel `(0,0)` set in a 2×2 mask stays set after
closing with radius 1, and closing with radius 0 returns the mask itself. -/
theorem closeMaskExact_extensive_and_id_witness :
    maskGet (closeMaskExact [true, false, false, false] 2 2 1) 2 0 0 = true ∧
      closeMaskExact [true, false, false, false] 2 2 0 = [true, false, false, false] :=
  closeMaskExact_extensive_and_id [true, false, false, false] 2 2 1 0 0
    (by decide) (by decide) (by decide)

/-- Counterexample to C2 as stated: for the single set pixel `(0,0)` on a
4×4 canvas, dilating by 1 and then by 2 differs from dilating once by 3
(the pixel `(2,2)` is reached by the radius-3 disc but not by any
two-step 1+2 path through integer disc offsets). -/
theorem dilateMaskExact_not_additive :
    dilateMaskExact (dilateMaskExact
        [true, false, false, false, false, false, false, false,
         false, false, false, false, false, false, false, false] 4 4 1) 4 4 2 ≠
      dilateMaskExact
        [true, false, false, false, false, false, false, false,
         false, false, false, false, false, false, false, false] 4 4 (1 + 2) := by
  decide

/-- C2 (amended): composing two exact disc dilations is contained in the
single exact dilation by the summed radius: every pixel set in
`dilateMaskExact(dilateMaskExact(M, r1), r2)` is set in
`dilateMaskExact(M, r1+r2)`.  (Equality fails in general, see the
counterexample.) -/
theorem dilateMaskExact_compose_subset (m : Mask) (w h r1 r2 x y : Nat)
    (hx : x < w) (hy : y < h)
    (hset : maskGet (dilateMaskExact (dilateMaskExact m w h r1) w h r2) w x y = true) :
    maskGet (dilateMaskExact m w h (r1 + r2)) w x y = true := by
  have h0 : ∀ mm : Mask, dilateMaskExact mm w h 0 = mm := fun mm => by
    unfold dilateMaskExact
    rw [if_pos rfl]
  by_cases h1 : r1 = 0
  · subst h1
    by_cases h2 : r2 = 0
    · subst h2
      rw [h0, h0] at hset
      rw [Nat.add_zero]
      rw [h0]
      exact hset
    · rw [h0] at hset
      rw [Nat.zero_add]
      exact hset
  · by_cases h2 : r2 = 0
    · subst h2
      rw [h0] at hset
      rw [Nat.add_zero]
      exact hset
    · have hr12 : r1 + r2 ≠ 0 := by omega
      rw [maskGet_dilateMaskExact h2 hx hy, dilatePixel_eq_true_iff] at hset
      obtain ⟨sx, sy, hsx, hsy, hmid, hd2⟩ := hset
      rw [maskGet_dilateMaskExact h1 hsx hsy, dilatePixel_eq_true_iff] at hmid
      obtain ⟨tx, ty, htx, hty, hsrc, hd1⟩ := hmid
      rw [maskGet_dilateMaskExact hr12 hx hy, dilatePixel_eq_true_iff]
      refine ⟨tx, ty, htx, hty, hsrc, ?_⟩
      have hcast : ((r1 + r2 : Nat) : Int) = (r1 : Int) + (r2 : Int) := by push_cast; ring
      have e1 : (x : Int) - tx = ((x : Int) - sx) + ((sx : Int) - tx) := by ring
      have e2 : (y : Int) - ty = ((y : Int) - sy) + ((sy : Int) - ty) := by ring
      rw [hcast, e1, e2]
      have hr1 : (0 : Int) ≤ (r1 : Int) := Int.natCast_nonneg r1
      have hr2 : (0 : Int) ≤ (r2 : Int) := Int.natCast_nonneg r2
      set a1 : Int := (x : Int) - sx with ha1
      set b1 : Int := (y : Int) - sy with hb1
      set a2 : Int := (sx : Int) - tx with ha2
      set b2 : Int := (sy : Int) - ty with hb2
      set q1 : Int := (r1 : Int) with hq1
      set q2 : Int := (r2 : Int) with hq2
      have cs : (a1 * a2 + b1 * b2) * (a1 * a2 + b1 * b2) ≤
          (a1 * a1 + b1 * b1) * (a2 * a2 + b2 * b2) := by
        nlinarith [sq_nonneg (a1 * b2 - a2 * b1)]
      have cs2 : (a1 * a1 + b1 * b1) * (a2 * a2 + b2 * b2) ≤ (q2 * q2) * (q1 * q1) := by
        apply mul_le_mul hd2 hd1
        · exact add_nonneg (mul_self_nonneg _) (mul_self_nonneg _)
        · exact mul_self_nonneg _
      have st : (a1 * a2 + b1 * b2) * (a1 * a2 + b1 * b2) ≤ (q1 * q2) * (q1 * q2) := by
        calc (a1 * a2 + b1 * b2) * (a1 * a2 + b1 * b2) ≤ (q2 * q2) * (q1 * q1) :=
            le_trans cs cs2
          _ = (q1 * q2) * (q1 * q2) := by ring
      have key : a1 * a2 + b1 * b2 ≤ q1 * q2 :=
        int_le_of_sq_le_sq (mul_nonneg hr1 hr2) st
      calc (a1 + a2) * (a1 + a2) + (b1 + b2) * (b1 + b2)
          = (a1 * a1 + b1 * b1) + (a2 * a2 + b2 * b2) + 2 * (a1 * a2 + b1 * b2) := by
            ring
        _ ≤ q2 * q2 + q1 * q1 + 2 * (q1 * q2) := by linarith [hd1, hd2, key]
        _ = (q1 + q2) * (q1 + q2) := by ring

/-- Witness for C2 (amended): a pixel reached by composing radius-1 and
radius-1 dilations of a single set pixel is also reached by the single
radius-2 dilation. -/
theorem dilateMaskExact_compose_subset_witness :
    maskGet (dilateMaskExact [true, false, false, false] 2 2 (1 + 1)) 2 1 1 = true :=
  dilateMaskExact_compose_subset [true, false, false, false] 2 2 1 1 1 1
    (by decide) (by decide) (by decide)

-- ==============================
-- Approximate (box-filter) dilation
-- (source: apps.sticker-configurator.sticker.export.jsx lines 795-833)
-- ==============================

/-- Horizontal prefix sums of one mask row (`ps` in `dilateMaskBox`):
`psRow m w y n` counts the set pixels among the first `n` of row `y`. -/
def psRow (m : Mask) (w y : Nat) (n : Nat) : Nat :=
  ∑ x2 ∈ Finset.range n, (if maskGet m w x2 y then 1 else 0)

/-- Vertical prefix sums of one mask column (`psY` in `dilateMaskBox`). -/
def psCol (m : Mask) (w x : Nat) (n : Nat) : Nat :=
  ∑ y2 ∈ Finset.range n, (if maskGet m w x y2 then 1 else 0)

/-- Horizontal pass of `dilateMaskBox`: `tmp[row+x] = 1` iff the window
`[max(0,x-r), min(w-1,x+r)]` of the row has positive sum. -/
def boxRowPass (m : Mask) (w h r : Nat) : Mask :=
  (List.range (w * h)).map (fun idx =>
    decide (0 < psRow m w (idx / w) (min (w - 1) (idx % w + r) + 1) -
      psRow m w (idx / w) (idx % w - r)))

/-- `dilateMaskBox(mask, w, h, radiusPx)`: separable box dilation via two
prefix-sum passes; radius `0` returns the mask unchanged. -/
def dilateMaskBox (m : Mask) (w h : Nat) (r : Nat) : Mask :=
  if r = 0 then m
  else (List.range (w * h)).map (fun idx =>
    decide (0 < psCol (boxRowPass m w h r) w (idx % w) (min (h - 1) (idx / w + r) + 1) -
      psCol (boxRowPass m w h r) w (idx % w) (idx / w - r)))

theorem ps_window_pos_iff {f : Nat → Bool} {a b : Nat} (hab : a ≤ b) :
    0 < (∑ i ∈ Finset.range b, if f i then 1 else 0) -
        (∑ i ∈ Finset.range a, if f i then 1 else 0) ↔
      ∃ i, a ≤ i ∧ i < b ∧ f i = true := by
  have hsplit : (∑ i ∈ Finset.range b, if f i then (1 : ℕ) else 0)
      = (∑ i ∈ Finset.range a, if f i then 1 else 0) +
        ∑ i ∈ Finset.Ico a b, (if f i then 1 else 0) := by
    simp only [Finset.range_eq_Ico]
    exact (Finset.sum_Ico_consecutive _ (Nat.zero_le a) hab).symm
  rw [hsplit, Nat.add_sub_cancel_left]
  constructor
  · intro hpos
    by_contra hnone
    push_neg at hnone
    have hzero : ∑ i ∈ Finset.Ico a b, (if f i then (1 : ℕ) else 0) = 0 := by
      apply Finset.sum_eq_zero
      intro i hi
      rw [Finset.mem_Ico] at hi
      have hne := hnone i hi.1 hi.2
      simp [hne]
    omega
  · rintro ⟨i, hai, hib, hfi⟩
    have hmem : i ∈ Finset.Ico a b := Finset.mem_Ico.mpr ⟨hai, hib⟩
    have hle : (if f i then (1 : ℕ) else 0) ≤
        ∑ i2 ∈ Finset.Ico a b, (if f i2 then (1 : ℕ) else 0) := by
      apply Finset.single_le_sum _ hmem
      intro j hj
      exact Nat.zero_le _
    rw [if_pos hfi] at hle
    omega

theorem psRow_window_pos_iff {m : Mask} {w y a b : Nat} (hab : a ≤ b) :
    0 < psRow m w y b - psRow m w y a ↔
      ∃ i, a ≤ i ∧ i < b ∧ maskGet m w i y = true := by
  unfold psRow
  exact ps_window_pos_iff hab

theorem psCol_window_pos_iff {m : Mask} {w x a b : Nat} (hab : a ≤ b) :
    0 < psCol m w x b - psCol m w x a ↔
      ∃ j, a ≤ j ∧ j < b ∧ maskGet m w x j = true := by
  unfold psCol
  exact ps_window_pos_iff hab

theorem maskGet_boxRowPass {m : Mask} {w h r x y : Nat} (hx : x < w) (hy : y < h) :
    maskGet (boxRowPass m w h r) w x y =
      decide (0 < psRow m w y (min (w - 1) (x + r) + 1) - psRow m w y (x - r)) := by
  unfold boxRowPass
  rw [maskGet_range_map hx hy, idx_fst hx, idx_snd hx]

theorem maskGet_dilateMaskBox {m : Mask} {w h r x y : Nat} (hr : r ≠ 0)
    (hx : x < w) (hy : y < h) :
    maskGet (dilateMaskBox m w h r) w x y =
      decide (0 < psCol (boxRowPass m w h r) w x (min (h - 1) (y + r) + 1) -
        psCol (boxRowPass m w h r) w x (y - r)) := by
  unfold dilateMaskBox
  rw [if_neg hr, maskGet_range_map hx hy, idx_fst hx, idx_snd hx]

/-- C10: the approximate box-filter dilation dominates the exact disc
dilation: every pixel set by `dilateMaskExact` is set by `dilateMaskBox`
(the square window contains the integer disc). -/
theorem dilateMaskBox_dominates_exact (m : Mask) (w h r x y : Nat)
    (hx : x < w) (hy : y < h)
    (hset : maskGet (dilateMaskExact m w h r) w x y = true) :
    maskGet (dilateMaskBox m w h r) w x y = true := by
  by_cases hr : r = 0
  · subst hr
    unfold dilateMaskBox
    rw [if_pos rfl]
    unfold dilateMaskExact at hset
    rw [if_pos rfl] at hset
    exact hset
  · rw [maskGet_dilateMaskExact hr hx hy, dilatePixel_eq_true_iff] at hset
    obtain ⟨sx, sy, hsx, hsy, hsrc, hdist⟩ := hset
    have hdx : ((x : Int) - sx) * ((x : Int) - sx) ≤ (r : Int) * (r : Int) :=
      le_trans (le_add_of_nonneg_right (mul_self_nonneg _)) hdist
    have hdy : ((y : Int) - sy) * ((y : Int) - sy) ≤ (r : Int) * (r : Int) :=
      le_trans (le_add_of_nonneg_left (mul_self_nonneg _)) hdist
    have hrpos : (0 : Int) ≤ (r : Int) := Int.natCast_nonneg r
    have hx1 : (x : Int) - sx ≤ (r : Int) := int_le_of_sq_le_sq hrpos hdx
    have hx2 : (sx : Int) - x ≤ (r : Int) := by
      apply int_le_of_sq_le_sq hrpos
      have e : ((sx : Int) - x) * ((sx : Int) - x) = ((x : Int) - sx) * ((x : Int) - sx) := by
        ring
      rw [e]
      exact hdx
    have hy1 : (y : Int) - sy ≤ (r : Int) := int_le_of_sq_le_sq hrpos hdy
    have hy2 : (sy : Int) - y ≤ (r : Int) := by
      apply int_le_of_sq_le_sq hrpos
      have e : ((sy : Int) - y) * ((sy : Int) - y) = ((y : Int) - sy) * ((y : Int) - sy) := by
        ring
      rw [e]
      exact hdy
    rw [maskGet_dilateMaskBox hr hx hy, decide_eq_true_iff]
    rw [psCol_window_pos_iff (by omega)]
    refine ⟨sy, by omega, by omega, ?_⟩
    rw [maskGet_boxRowPass hx hsy, decide_eq_true_iff]
    rw [psRow_window_pos_iff (by omega)]
    exact ⟨sx, by omega, by omega, hsrc⟩

/-- Witness for C10: the pixel `(1,1)` reached by the exact radius-1
dilation of a single set pixel on a 3×3 canvas is also set by the box
dilation (indeed strictly more pixels are). -/
theorem dilateMaskBox_dominates_exact_witness :
    maskGet (dilateMaskBox [true, false, false, false, false, false, false, false, false]
      3 3 1) 3 1 0 = true :=
  dilateMaskBox_dominates_exact
    [true, false, false, false, false, false, false, false, false] 3 3 1 1 0
    (by decide) (by decide) (by decide)

-- ==============================
-- Ramer-Douglas-Peucker simplification
-- (source: StickerCanvasClient.jsx lines 1001-1042; the server copy
-- simplifyDouglasPeucker, api.contour-from-png.jsx lines 20-80, runs the
-- same recursion on squared distances)
-- ==============================

/-- Squared point-to-segment distance (`distPointLine` of `rdp`, squared:
all of `rdp`'s comparisons are between nonnegative distances, so comparing
squares is observationally identical and keeps the computation in `ℚ`). -/
def distPointLineSq (p a b : ℚ × ℚ) : ℚ :=
  if b.1 - a.1 = 0 ∧ b.2 - a.2 = 0 then
    (p.1 - a.1) * (p.1 - a.1) + (p.2 - a.2) * (p.2 - a.2)
  else
    let dx := b.1 - a.1
    let dy := b.2 - a.2
    let t := ((p.1 - a.1) * dx + (p.2 - a.2) * dy) / (dx * dx + dy * dy)
    let tt := max 0 (min 1 t)
    let px := a.1 + tt * dx
    let py := a.2 + tt * dy
    (p.1 - px) * (p.1 - px) + (p.2 - py) * (p.2 - py)

/-- One step of the `dmax`/`idx` scan of `rdp`: keep the farthest interior
point seen so far (`if (d > dmax) { dmax = d; idx = i; }`). -/
def rdpFindMaxStep (pts : List (ℚ × ℚ)) (acc : ℚ × Nat) (i : Nat) : ℚ × Nat :=
  if acc.1 < distPointLineSq (pts.getD i (0, 0)) (pts.getD 0 (0, 0))
      (pts.getD (pts.length - 1) (0, 0)) then
    (distPointLineSq (pts.getD i (0, 0)) (pts.getD 0 (0, 0))
      (pts.getD (pts.length - 1) (0, 0)), i)
  else acc

/-- The farthest-interior-point scan of `rdp` over `i = 1 .. end-1`,
starting from `dmax = 0`, `idx = 0`. -/
def rdpFindMax (pts : List (ℚ × ℚ)) : ℚ × Nat :=
  (List.range' 1 (pts.length - 1 - 1)).foldl (rdpFindMaxStep pts) (0, 0)

/-- The recursive `simplify` of `rdp`.  The JavaScript recursion always
descends to strictly shorter slices (shown in `rdpSimplify_props`), so its
depth is bounded by the list length; the bound is made explicit by a `fuel`
parameter which `rdp` instantiates with the length. -/
def rdpSimplify (eps : ℚ) : Nat → List (ℚ × ℚ) → List (ℚ × ℚ)
  | 0, pts => pts
  | fuel + 1, pts =>
    let m := rdpFindMax pts
    if eps < m.1 then
      (rdpSimplify eps fuel (pts.take (m.2 + 1))).dropLast ++
        rdpSimplify eps fuel (pts.drop m.2)
    else [pts.getD 0 (0, 0), pts.getD (pts.length - 1) (0, 0)]

/-- `rdp(points, epsilon)`: returns the input unchanged for fewer than 3
points, else runs the recursive simplification with the tolerance clamped
to `max(0, epsilon)`. -/
def rdp (points : List (ℚ × ℚ)) (epsilon : ℚ) : List (ℚ × ℚ) :=
  if points.length < 3 then points
  else rdpSimplify (max 0 epsilon) points.length points

theorem rdpFindMax_cases (pts : List (ℚ × ℚ)) :
    rdpFindMax pts = (0, 0) ∨
      (0 < (rdpFindMax pts).2 ∧ (rdpFindMax pts).2 < pts.length - 1) := by
  unfold rdpFindMax
  have hgen : ∀ (l : List Nat) (acc : ℚ × Nat),
      (∀ i ∈ l, 0 < i ∧ i < pts.length - 1) →
      (acc = (0, 0) ∨ (0 < acc.2 ∧ acc.2 < pts.length - 1)) →
      (l.foldl (rdpFindMaxStep pts) acc = (0, 0) ∨
        (0 < (l.foldl (rdpFindMaxStep pts) acc).2 ∧
          (l.foldl (rdpFindMaxStep pts) acc).2 < pts.length - 1)) := by
    intro l
    induction l with
    | nil => intro acc _ hacc; exact hacc
    | cons a t ih =>
      intro acc hl hacc
      rw [List.foldl_cons]
      apply ih
      · intro i hi
        exact hl i (by simp [hi])
      · unfold rdpFindMaxStep
        by_cases hc : acc.1 < distPointLineSq (pts.getD a (0, 0)) (pts.getD 0 (0, 0))
            (pts.getD (pts.length - 1) (0, 0))
        · rw [if_pos hc]
          right
          exact hl a (by simp)
        · rw [if_neg hc]
          exact hacc
  apply hgen
  · intro i hi
    rw [List.mem_range'_1] at hi
    omega
  · left
    rfl

theorem head?_eq_getD {l : List (ℚ × ℚ)} (h : l ≠ []) :
    l.head? = some (l.getD 0 (0, 0)) := by
  cases l with
  | nil => exact absurd rfl h
  | cons a t => rfl

theorem getLast?_eq_getD {l : List (ℚ × ℚ)} (h : 0 < l.length) :
    l.getLast? = some (l.getD (l.length - 1) (0, 0)) := by
  rw [List.getLast?_eq_getElem? l, List.getElem?_eq_getElem (by omega)]
  rw [List.getD_eq_getElem l (0, 0) (by omega)]

theorem head?_dropLast {l : List (ℚ × ℚ)} (h : 2 ≤ l.length) :
    l.dropLast.head? = l.head? := by
  cases l with
  | nil => simp at h
  | cons a t =>
    cases t with
    | nil => simp at h
    | cons b t2 => simp [List.dropLast]

theorem head?_take_succ (l : List (ℚ × ℚ)) (n : Nat) :
    (l.take (n + 1)).head? = l.head? := by
  cases l <;> rfl

theorem getLast?_drop_of_lt {l : List (ℚ × ℚ)} {n : Nat} (h : n < l.length) :
    (l.drop n).getLast? = l.getLast? := by
  rw [List.getLast?_eq_getElem? (l.drop n), List.getLast?_eq_getElem? l,
    List.getElem?_drop]
  congr 1
  rw [List.length_drop]
  omega

theorem rdpSimplify_props (eps : ℚ) (heps : 0 ≤ eps) :
    ∀ fuel pts, 2 ≤ pts.length → pts.length ≤ fuel →
      (rdpSimplify eps fuel pts).length ≤ pts.length ∧
      2 ≤ (rdpSimplify eps fuel pts).length ∧
      (rdpSimplify eps fuel pts).head? = pts.head? ∧
      (rdpSimplify eps fuel pts).getLast? = pts.getLast? := by
  intro fuel
  induction fuel with
  | zero => intro pts h2 hle; omega
  | succ n ih =>
    intro pts h2 hle
    by_cases hbr : eps < (rdpFindMax pts).1
    · have hne : rdpFindMax pts ≠ (0, 0) := by
        intro hzero
        rw [hzero] at hbr
        exact absurd hbr (by simpa using heps)
      have hidx : 0 < (rdpFindMax pts).2 ∧ (rdpFindMax pts).2 < pts.length - 1 :=
        (rdpFindMax_cases pts).resolve_left hne
      have hres : rdpSimplify eps (n + 1) pts =
          (rdpSimplify eps n (pts.take ((rdpFindMax pts).2 + 1))).dropLast ++
            rdpSimplify eps n (pts.drop (rdpFindMax pts).2) := by
        rw [rdpSimplify]
        simp only [if_pos hbr]
      have hlenTake : (pts.take ((rdpFindMax pts).2 + 1)).length = (rdpFindMax pts).2 + 1 := by
        rw [List.length_take]
        omega
      have hlenDrop : (pts.drop (rdpFindMax pts).2).length = pts.length - (rdpFindMax pts).2 := by
        rw [List.length_drop]
      have hL := ih (pts.take ((rdpFindMax pts).2 + 1)) (by omega) (by omega)
      have hR := ih (pts.drop (rdpFindMax pts).2) (by omega) (by omega)
      rw [hres]
      have hdll : ((rdpSimplify eps n (pts.take ((rdpFindMax pts).2 + 1))).dropLast).length =
          (rdpSimplify eps n (pts.take ((rdpFindMax pts).2 + 1))).length - 1 :=
        List.length_dropLast _
      have hRne : rdpSimplify eps n (pts.drop (rdpFindMax pts).2) ≠ [] := by
        intro hnil
        have := hR.2.1
        rw [hnil] at this
        simp at this
      refine ⟨?_, ?_, ?_, ?_⟩
      · rw [List.length_append, hdll]
        omega
      · rw [List.length_append, hdll]
        omega
      · have hdne : (rdpSimplify eps n (pts.take ((rdpFindMax pts).2 + 1))).dropLast ≠ [] := by
          intro hnil
          have hlen0 := congrArg List.length hnil
          rw [hdll] at hlen0
          simp at hlen0
          omega
        rw [List.head?_append]
        rw [head?_dropLast hL.2.1]
        rw [hL.2.2.1]
        rw [head?_take_succ]
        have hpne : pts ≠ [] := by
          intro hnil
          rw [hnil] at h2
          simp at h2
        rw [head?_eq_getD hpne]
        simp
      · rw [List.getLast?_append_of_ne_nil _ hRne, hR.2.2.2,
          getLast?_drop_of_lt (by omega)]
    · have hres : rdpSimplify eps (n + 1) pts =
          [pts.getD 0 (0, 0), pts.getD (pts.length - 1) (0, 0)] := by
        rw [rdpSimplify]
        simp only [if_neg hbr]
      rw [hres]
      have hpne : pts ≠ [] := by
        intro hnil
        rw [hnil] at h2
        simp at h2
      refine ⟨by simpa using h2, by simp, ?_, ?_⟩
      · rw [head?_eq_getD hpne]
        rfl
      · rw [@getLast?_eq_getD pts (by omega)]
        rfl

/-- C4: the Ramer-Douglas-Peucker simplification returns a list no longer
than its input whose first and last elements are the input first and last
points, unchanged. -/
theorem rdp_length_and_endpoints (points : List (ℚ × ℚ)) (epsilon : ℚ) :
    (rdp points epsilon).length ≤ points.length ∧
    (rdp points epsilon).head? = points.head? ∧
    (rdp points epsilon).getLast? = points.getLast? := by
  unfold rdp
  by_cases hlen : points.length < 3
  · rw [if_pos hlen]
    exact ⟨le_refl _, rfl, rfl⟩
  · rw [if_neg hlen]
    have h := rdpSimplify_props (max 0 epsilon) (le_max_left 0 epsilon)
      points.length points (by omega) (le_refl _)
    exact ⟨h.1, h.2.2.1, h.2.2.2⟩

-- ==============================
-- Marching-squares contour (source: StickerCanvasClient.jsx lines 1046-1117)
-- ==============================

/-- `inside(x, y)` of `marchingSquaresContour`: bounds-checked mask read
(out-of-canvas counts as outside). -/
def msInside (mask : Mask) (w h : Nat) (x y : Int) : Bool :=
  if x < 0 ∨ y < 0 ∨ (w : Int) ≤ x ∨ (h : Int) ≤ y then false
  else maskGet mask w x.toNat y.toNat

/-- The row-major scan for the trace start: the first pixel with
`inside(x,y) && !inside(x-1,y)`. -/
def msStartScan (mask : Mask) (w h : Nat) : Option (Nat × Nat) :=
  (gridPoints w h).find? (fun p =>
    msInside mask w h (p.1 : Int) (p.2 : Int) &&
      !msInside mask w h ((p.1 : Int) - 1) (p.2 : Int))

/-- The 16-case lookup of the marching step: direction from the 2×2 corner
neighborhood (`0` = up, `1` = right, `2` = down, `3` = left). -/
def msDir (mask : Mask) (w h : Nat) (x y : Int) : Nat :=
  let a := msInside mask w h (x - 1) (y - 1)
  let b := msInside mask w h x (y - 1)
  let c := msInside mask w h (x - 1) y
  let d := msInside mask w h x y
  let idx := (if a then 8 else 0) + (if b then 4 else 0) +
    (if c then 2 else 0) + (if d then 1 else 0)
  if idx = 1 ∨ idx = 5 ∨ idx = 9 ∨ idx = 13 then 0
  else if idx = 2 ∨ idx = 3 ∨ idx = 6 ∨ idx = 7 then 3
  else if idx = 8 ∨ idx = 10 ∨ idx = 11 ∨ idx = 14 then 2
  else 1

/-- Move one corner in direction `dir`. -/
def msMove (dir : Nat) (x y : Int) : Int × Int :=
  if dir = 0 then (x, y - 1)
  else if dir = 1 then (x + 1, y)
  else if dir = 2 then (x, y + 1)
  else (x - 1, y)

/-- One iteration of the trace (`step()` in the source: compute the
direction, move, the new corner is appended by the caller). -/
def msStep (mask : Mask) (w h : Nat) (p : Int × Int) : Int × Int :=
  msMove (msDir mask w h p.1 p.2) p.1 p.2

/-- The bounded trace loop (`for (let i = 0; i < maxSteps; i++)`): at most
`steps` more iterations, `i` the current iteration index; each iteration
appends the new corner, and the walk stops early when it returns to the
start corner after more than 10 steps. -/
def msLoop (mask : Mask) (w h sx sy : Nat) :
    Nat → Nat → Int × Int → List (Int × Int) → List (Int × Int)
  | 0, _, _, pts => pts
  | steps + 1, i, p, pts =>
    if (msStep mask w h p).1 = (sx : Int) ∧ (msStep mask w h p).2 = (sy : Int) ∧
        10 < i then
      pts ++ [msStep mask w h p]
    else
      msLoop mask w h sx sy steps (i + 1) (msStep mask w h p)
        (pts ++ [msStep mask w h p])

/-- `marchingSquaresContour(mask, w, h)`: scan for the start transition
(empty result when none), then walk the boundary with step budget
`w*h + (w+h)*50`. -/
def marchingSquaresContour (mask : Mask) (w h : Nat) : List (Int × Int) :=
  match msStartScan mask w h with
  | none => []
  | some s =>
    msLoop mask w h s.1 s.2 (w * h + (w + h) * 50) 0 ((s.1 : Int), (s.2 : Int))
      [((s.1 : Int), (s.2 : Int))]

theorem msLoop_length_le (mask : Mask) (w h sx sy : Nat) :
    ∀ steps i p pts, (msLoop mask w h sx sy steps i p pts).length ≤
      pts.length + steps := by
  intro steps
  induction steps with
  | zero =>
    intro i p pts
    simp [msLoop]
  | succ n ih =>
    intro i p pts
    rw [msLoop]
    by_cases hc : (msStep mask w h p).1 = (sx : Int) ∧
        (msStep mask w h p).2 = (sy : Int) ∧ 10 < i
    · rw [if_pos hc]
      rw [List.length_append]
      simp
    · rw [if_neg hc]
      have := ih (i + 1) (msStep mask w h p) (pts ++ [msStep mask w h p])
      rw [List.length_append] at this
      simp at this
      omega

theorem msLoop_length_ge (mask : Mask) (w h sx sy : Nat) :
    ∀ steps i p pts, pts.length ≤ (msLoop mask w h sx sy steps i p pts).length := by
  intro steps
  induction steps with
  | zero =>
    intro i p pts
    simp [msLoop]
  | succ n ih =>
    intro i p pts
    rw [msLoop]
    by_cases hc : (msStep mask w h p).1 = (sx : Int) ∧
        (msStep mask w h p).2 = (sy : Int) ∧ 10 < i
    · rw [if_pos hc]
      rw [List.length_append]
      omega
    · rw [if_neg hc]
      have := ih (i + 1) (msStep mask w h p) (pts ++ [msStep mask w h p])
      rw [List.length_append] at this
      simp at this
      omega

/-- C5: the marching-squares trace performs at most the `w*h + (w+h)*50`
budgeted steps (so the result has at most that many points beyond the start
corner), and it returns the empty list exactly when no row-major scan
position satisfies `inside(x,y) && !inside(x-1,y)`. -/
theorem marchingSquaresContour_spec (mask : Mask) (w h : Nat) :
    (marchingSquaresContour mask w h).length ≤ w * h + (w + h) * 50 + 1 ∧
    (marchingSquaresContour mask w h = [] ↔
      ¬ ∃ x y : Nat, x < w ∧ y < h ∧
        msInside mask w h (x : Int) (y : Int) = true ∧
        msInside mask w h ((x : Int) - 1) (y : Int) = false) := by
  unfold marchingSquaresContour
  cases hscan : msStartScan mask w h with
  | none =>
    refine ⟨by simp, ?_, ?_⟩
    · intro _ hex
      obtain ⟨x, y, hx, hy, h1, h2⟩ := hex
      have hnone := List.find?_eq_none.mp hscan (x, y) (mem_gridPoints.mpr ⟨hx, hy⟩)
      apply hnone
      simp [h1, h2]
    · intro _
      rfl
  | some s =>
    constructor
    · have hle := msLoop_length_le mask w h s.1 s.2 (w * h + (w + h) * 50) 0
        ((s.1 : Int), (s.2 : Int)) [((s.1 : Int), (s.2 : Int))]
      simp only [List.length_cons, List.length_nil] at hle
      show (msLoop mask w h s.1 s.2 (w * h + (w + h) * 50) 0 ((s.1 : Int), (s.2 : Int))
        [((s.1 : Int), (s.2 : Int))]).length ≤ w * h + (w + h) * 50 + 1
      omega
    · constructor
      · intro hempty
        exfalso
        have hempty2 : msLoop mask w h s.1 s.2 (w * h + (w + h) * 50) 0
            ((s.1 : Int), (s.2 : Int)) [((s.1 : Int), (s.2 : Int))] = [] := hempty
        have hge := msLoop_length_ge mask w h s.1 s.2 (w * h + (w + h) * 50) 0
          ((s.1 : Int), (s.2 : Int)) [((s.1 : Int), (s.2 : Int))]
        rw [hempty2] at hge
        simp at hge
      · intro hno
        exfalso
        apply hno
        have hmem := List.mem_of_find?_eq_some hscan
        have hsat := List.find?_some hscan
        simp only [Bool.and_eq_true, Bool.not_eq_true'] at hsat
        have hb := mem_gridPoints.mp hmem
        exact ⟨s.1, s.2, hb.1, hb.2, hsat.1, hsat.2⟩

-- ==============================
-- Catalog snapping (source: part_006 lines 366-398,
-- StickerCanvasClient.jsx lines 298-329)
-- ==============================

/-- A catalog size entry (`{wCm, hCm}`). -/
structure CatalogSize where
  wCm : ℚ
  hCm : ℚ
deriving Repr, DecidableEq

/-- `s._area` of `pickBillingSizeForFreeform`. -/
def sizeArea (s : CatalogSize) : ℚ := s.wCm * s.hCm

/-- `s._max` of `pickBillingSizeForFreeform`. -/
def sizeMaxSide (s : CatalogSize) : ℚ := max s.wCm s.hCm

/-- Validity of a catalog entry as checked in the `fits` loop
(`Number.isFinite` is vacuous in `ℚ`, positivity remains). -/
def sizeValid (s : CatalogSize) : Bool :=
  decide (0 < s.wCm) && decide (0 < s.hCm)

/-- Containment of the request in a size box, rotation allowed
(`fitA || fitB`). -/
def sizeFits (w h : ℚ) (s : CatalogSize) : Bool :=
  (decide (w ≤ s.wCm) && decide (h ≤ s.hCm)) ||
    (decide (w ≤ s.hCm) && decide (h ≤ s.wCm))

/-- The ascending order of `fits.sort((a, b) => a._area - b._area || a._max - b._max)`:
by area, ties by longest side.  A stable merge sort under this total
preorder reproduces the JavaScript stable `Array.prototype.sort`. -/
def billLe (a b : CatalogSize) : Bool :=
  decide (sizeArea a < sizeArea b) ||
    (decide (sizeArea a = sizeArea b) && decide (sizeMaxSide a ≤ sizeMaxSide b))

/-- The descending fallback order (`.sort((a, b) => b._area - a._area)`). -/
def billGe (a b : CatalogSize) : Bool := decide (sizeArea b ≤ sizeArea a)

/-- `pickBillingSizeForFreeform(userWcm, userHcm, sizes)`: `null` for an
empty catalog or non-positive request; otherwise the head of the fits list
sorted by (area, longest side); when nothing fits, the entry with the
largest area. -/
def pickBillingSizeForFreeform (userWcm userHcm : ℚ) (sizes : List CatalogSize) :
    Option CatalogSize :=
  if sizes.isEmpty ∨ max 0 userWcm ≤ 0 ∨ max 0 userHcm ≤ 0 then none
  else if (sizes.filter (fun s =>
      sizeValid s && sizeFits (max 0 userWcm) (max 0 userHcm) s)).isEmpty then
    (sizes.mergeSort billGe).head?
  else
    ((sizes.filter (fun s =>
      sizeValid s && sizeFits (max 0 userWcm) (max 0 userHcm) s)).mergeSort billLe).head?

theorem billGe_trans (a b c : CatalogSize) (h1 : billGe a b = true)
    (h2 : billGe b c = true) : billGe a c = true := by
  simp only [billGe, decide_eq_true_eq] at h1 h2 ⊢
  exact le_trans h2 h1

theorem billGe_total (a b : CatalogSize) : (billGe a b || billGe b a) = true := by
  simp only [billGe, Bool.or_eq_true, decide_eq_true_eq]
  exact le_total (sizeArea b) (sizeArea a)

theorem billLe_trans (a b c : CatalogSize) (h1 : billLe a b = true)
    (h2 : billLe b c = true) : billLe a c = true := by
  simp only [billLe, Bool.or_eq_true, Bool.and_eq_true, decide_eq_true_eq] at h1 h2 ⊢
  rcases h1 with h1 | ⟨h1e, h1m⟩
  · rcases h2 with h2 | ⟨h2e, h2m⟩
    · exact Or.inl (lt_trans h1 h2)
    · exact Or.inl (h2e ▸ h1)
  · rcases h2 with h2 | ⟨h2e, h2m⟩
    · exact Or.inl (h1e ▸ h2)
    · exact Or.inr ⟨h1e.trans h2e, le_trans h1m h2m⟩

theorem billLe_total (a b : CatalogSize) : (billLe a b || billLe b a) = true := by
  simp only [billLe, Bool.or_eq_true, Bool.and_eq_true, decide_eq_true_eq]
  rcases lt_trichotomy (sizeArea a) (sizeArea b) with h | h | h
  · exact Or.inl (Or.inl h)
  · rcases le_total (sizeMaxSide a) (sizeMaxSide b) with hm | hm
    · exact Or.inl (Or.inr ⟨h, hm⟩)
    · exact Or.inr (Or.inr ⟨h.symm, hm⟩)
  · exact Or.inr (Or.inl h)

/-- C8: for a strictly positive freeform request and a non-empty catalog of
positive sizes, `pickBillingSizeForFreeform` returns a catalog entry; if any
entry contains the request (rotation allowed) the result is a containing
entry minimal in the (area, longest side) order; otherwise the result has
the largest area in the catalog. -/
theorem pickBillingSizeForFreeform_spec (userWcm userHcm : ℚ)
    (sizes : List CatalogSize) (hw : 0 < userWcm) (hh : 0 < userHcm)
    (hne : sizes ≠ []) (hvalid : ∀ s ∈ sizes, 0 < s.wCm ∧ 0 < s.hCm) :
    ∃ r, pickBillingSizeForFreeform userWcm userHcm sizes = some r ∧ r ∈ sizes ∧
      ((∃ s ∈ sizes, sizeFits userWcm userHcm s = true) →
        sizeFits userWcm userHcm r = true ∧
        ∀ s ∈ sizes, sizeFits userWcm userHcm s = true → billLe r s = true) ∧
      ((¬ ∃ s ∈ sizes, sizeFits userWcm userHcm s = true) →
        ∀ s ∈ sizes, sizeArea s ≤ sizeArea r) := by
  have hw0 : max 0 userWcm = userWcm := max_eq_right (le_of_lt hw)
  have hh0 : max 0 userHcm = userHcm := max_eq_right (le_of_lt hh)
  have hcond : ¬ ((sizes.isEmpty : Prop) ∨ max 0 userWcm ≤ 0 ∨ max 0 userHcm ≤ 0) := by
    push_neg
    refine ⟨?_, ?_, ?_⟩
    · simpa [List.isEmpty_iff] using hne
    · rw [hw0]; exact hw
    · rw [hh0]; exact hh
  unfold pickBillingSizeForFreeform
  rw [if_neg hcond]
  simp only [hw0, hh0]
  set fits := sizes.filter (fun s => sizeValid s && sizeFits userWcm userHcm s) with hfitsdef
  by_cases hfe : (fits.isEmpty : Prop)
  · rw [if_pos hfe]
    obtain ⟨r, t, hrt⟩ : ∃ r t, sizes.mergeSort billGe = r :: t := by
      cases hcase : sizes.mergeSort billGe with
      | nil =>
        exfalso
        have hlen := (List.mergeSort_perm sizes billGe).length_eq
        rw [hcase] at hlen
        simp only [List.length_nil] at hlen
        exact hne (List.length_eq_zero.mp hlen.symm)
      | cons a t => exact ⟨a, t, rfl⟩
    have hrm : r ∈ sizes := List.mem_mergeSort.mp (by rw [hrt]; simp)
    refine ⟨r, by rw [hrt]; rfl, hrm, ?_, ?_⟩
    · intro hex
      exfalso
      obtain ⟨s, hs, hsf⟩ := hex
      have hv := hvalid s hs
      have hmemf : s ∈ fits := by
        rw [hfitsdef]
        apply List.mem_filter.mpr
        refine ⟨hs, ?_⟩
        simp [sizeValid, hsf, hv.1, hv.2]
      rw [List.isEmpty_iff] at hfe
      rw [hfe] at hmemf
      simp at hmemf
    · intro _ s hs
      have hsorted : List.Pairwise (fun a b => billGe a b = true)
          (sizes.mergeSort billGe) :=
        List.sorted_mergeSort billGe_trans billGe_total sizes
      rw [hrt] at hsorted
      have hsm : s ∈ sizes.mergeSort billGe := List.mem_mergeSort.mpr hs
      rw [hrt] at hsm
      rcases List.mem_cons.mp hsm with hcase | hcase
      · rw [hcase]
      · have := (List.pairwise_cons.mp hsorted).1 s hcase
        simpa [billGe] using this
  · rw [if_neg hfe]
    obtain ⟨r, t, hrt⟩ : ∃ r t, fits.mergeSort billLe = r :: t := by
      cases hcase : fits.mergeSort billLe with
      | nil =>
        exfalso
        have hlen := (List.mergeSort_perm fits billLe).length_eq
        rw [hcase] at hlen
        simp only [List.length_nil] at hlen
        rw [List.isEmpty_iff] at hfe
        exact hfe (List.length_eq_zero.mp hlen.symm)
      | cons a t => exact ⟨a, t, rfl⟩
    have hrmf : r ∈ fits := List.mem_mergeSort.mp (by rw [hrt]; simp)
    have hrfilter := List.mem_filter.mp (hfitsdef ▸ hrmf)
    have hrm : r ∈ sizes := hrfilter.1
    have hrfits : sizeFits userWcm userHcm r = true := by
      have := hrfilter.2
      simp only [Bool.and_eq_true] at this
      exact this.2
    refine ⟨r, by rw [hrt]; rfl, hrm, ?_, ?_⟩
    · intro _
      refine ⟨hrfits, ?_⟩
      intro s hs hsf
      have hv := hvalid s hs
      have hmemf : s ∈ fits := by
        rw [hfitsdef]
        apply List.mem_filter.mpr
        refine ⟨hs, ?_⟩
        simp [sizeValid, hsf, hv.1, hv.2]
      have hsorted : List.Pairwise (fun a b => billLe a b = true)
          (fits.mergeSort billLe) :=
        List.sorted_mergeSort billLe_trans billLe_total fits
      rw [hrt] at hsorted
      have hsm : s ∈ fits.mergeSort billLe := List.mem_mergeSort.mpr hmemf
      rw [hrt] at hsm
      rcases List.mem_cons.mp hsm with hcase | hcase
      · rw [hcase]
        simp [billLe]
      · exact (List.pairwise_cons.mp hsorted).1 s hcase
    · intro hno
      exfalso
      exact hno ⟨r, hrm, hrfits⟩

/-- Witness for C8: request `(5, 3)` against the catalog `[4×4, 6×4]`
snaps to the smallest containing size `6×4`. -/
theorem pickBillingSizeForFreeform_spec_witness :
    ∃ r, pickBillingSizeForFreeform 5 3
        [{ wCm := 4, hCm := 4 }, { wCm := 6, hCm := 4 }] = some r ∧
      r ∈ [({ wCm := 4, hCm := 4 } : CatalogSize), { wCm := 6, hCm := 4 }] ∧
      ((∃ s ∈ [({ wCm := 4, hCm := 4 } : CatalogSize), { wCm := 6, hCm := 4 }],
          sizeFits 5 3 s = true) →
        sizeFits 5 3 r = true ∧
        ∀ s ∈ [({ wCm := 4, hCm := 4 } : CatalogSize), { wCm := 6, hCm := 4 }],
          sizeFits 5 3 s = true → billLe r s = true) ∧
      ((¬ ∃ s ∈ [({ wCm := 4, hCm := 4 } : CatalogSize), { wCm := 6, hCm := 4 }],
          sizeFits 5 3 s = true) →
        ∀ s ∈ [({ wCm := 4, hCm := 4 } : CatalogSize), { wCm := 6, hCm := 4 }],
          sizeArea s ≤ sizeArea r) :=
  pickBillingSizeForFreeform_spec 5 3
    [{ wCm := 4, hCm := 4 }, { wCm := 6, hCm := 4 }]
    (by norm_num) (by norm_num) (by simp)
    (by
      intro s hs
      rcases List.mem_cons.mp hs with h | h
      · rw [h]; norm_num
      · rcases List.mem_cons.mp h with h2 | h2
        · rw [h2]; norm_num
        · simp at h2)

-- ==============================
-- Alpha mask builder: flood fill (source: part_006 lines 760-832;
-- export.jsx lines 714-791 is the same fill without the closing step)
-- ==============================

/-- The 4-neighbour offsets of the flood fill in source order
(`[x+1,y], [x-1,y], [x,y+1], [x,y-1]`, as integers before the bounds
check). -/
def neighborsCode (x y : Nat) : List (Int × Int) :=
  [((x : Int) + 1, (y : Int)), ((x : Int) - 1, (y : Int)),
   ((x : Int), (y : Int) + 1), ((x : Int), (y : Int) - 1)]

/-- In-bounds 4-neighbours as canvas pixels (the
`nx < 0 || ny < 0 || nx >= w || ny >= h` check of the source). -/
def inBoundsNeighbors (w h x y : Nat) : List (Nat × Nat) :=
  (neighborsCode x y).filterMap (fun q =>
    if 0 ≤ q.1 ∧ q.1 < (w : Int) ∧ 0 ≤ q.2 ∧ q.2 < (h : Int) then
      some (q.1.toNat, q.2.toNat)
    else none)

/-- All pixels of the canvas as a finite set. -/
def gridFinset (w h : Nat) : Finset (Nat × Nat) :=
  Finset.range w ×ˢ Finset.range h

theorem mem_gridFinset {w h : Nat} {p : Nat × Nat} :
    p ∈ gridFinset w h ↔ p.1 < w ∧ p.2 < h := by
  rw [gridFinset, Finset.mem_product, Finset.mem_range, Finset.mem_range]

theorem mem_inBoundsNeighbors {w h x y : Nat} {q : Nat × Nat} :
    q ∈ inBoundsNeighbors w h x y ↔
      q.1 < w ∧ q.2 < h ∧
        ((q.1 = x + 1 ∧ q.2 = y) ∨ (q.1 + 1 = x ∧ q.2 = y) ∨
         (q.1 = x ∧ q.2 = y + 1) ∨ (q.1 = x ∧ q.2 + 1 = y)) := by
  unfold inBoundsNeighbors neighborsCode
  rw [List.mem_filterMap]
  constructor
  · rintro ⟨a, ha, hfa⟩
    by_cases hc : 0 ≤ a.1 ∧ a.1 < (w : Int) ∧ 0 ≤ a.2 ∧ a.2 < (h : Int)
    · rw [if_pos hc] at hfa
      have hq := Option.some.inj hfa
      have hq1 : q.1 = a.1.toNat := (congrArg Prod.fst hq).symm
      have hq2 : q.2 = a.2.toNat := (congrArg Prod.snd hq).symm
      obtain ⟨hc1, hc2, hc3, hc4⟩ := hc
      simp only [List.mem_cons, List.mem_singleton, List.not_mem_nil, or_false] at ha
      rcases ha with ha | ha | ha | ha
      all_goals
        have ha1 := congrArg Prod.fst ha
        have ha2 := congrArg Prod.snd ha
        simp only [] at ha1 ha2
        omega
    · rw [if_neg hc] at hfa
      exact Option.noConfusion hfa
  · rintro ⟨hqw, hqh, hcase⟩
    rcases hcase with ⟨h1, h2⟩ | ⟨h1, h2⟩ | ⟨h1, h2⟩ | ⟨h1, h2⟩
    · refine ⟨((x : Int) + 1, (y : Int)), by simp, ?_⟩
      rw [if_pos (by constructor <;> omega)]
      have e1 : ((x : Int) + 1).toNat = q.1 := by omega
      have e2 : ((y : Int)).toNat = q.2 := by omega
      rw [e1, e2]
    · refine ⟨((x : Int) - 1, (y : Int)), by simp, ?_⟩
      rw [if_pos (by constructor <;> omega)]
      have e1 : ((x : Int) - 1).toNat = q.1 := by omega
      have e2 : ((y : Int)).toNat = q.2 := by omega
      rw [e1, e2]
    · refine ⟨((x : Int), (y : Int) + 1), by simp, ?_⟩
      rw [if_pos (by constructor <;> omega)]
      have e1 : ((x : Int)).toNat = q.1 := by omega
      have e2 : ((y : Int) + 1).toNat = q.2 := by omega
      rw [e1, e2]
    · refine ⟨((x : Int), (y : Int) - 1), by simp, ?_⟩
      rw [if_pos (by constructor <;> omega)]
      have e1 : ((x : Int)).toNat = q.1 := by omega
      have e2 : ((y : Int) - 1).toNat = q.2 := by omega
      rw [e1, e2]

theorem inBoundsNeighbors_nodup (w h x y : Nat) :
    (inBoundsNeighbors w h x y).Nodup := by
  unfold inBoundsNeighbors
  apply List.Nodup.filterMap
  · intro a b q hqa hqb
    simp only [Option.mem_def] at hqa hqb
    by_cases hca : 0 ≤ a.1 ∧ a.1 < (w : Int) ∧ 0 ≤ a.2 ∧ a.2 < (h : Int)
    · rw [if_pos hca] at hqa
      by_cases hcb : 0 ≤ b.1 ∧ b.1 < (w : Int) ∧ 0 ≤ b.2 ∧ b.2 < (h : Int)
      · rw [if_pos hcb] at hqb
        have ea := Option.some.inj hqa
        have eb := Option.some.inj hqb
        have e1 : a.1 = b.1 := by
          have h1 : a.1.toNat = q.1 := congrArg Prod.fst ea
          have h2 : b.1.toNat = q.1 := congrArg Prod.fst eb
          omega
        have e2 : a.2 = b.2 := by
          have h1 : a.2.toNat = q.2 := congrArg Prod.snd ea
          have h2 : b.2.toNat = q.2 := congrArg Prod.snd eb
          omega
        exact Prod.ext e1 e2
      · rw [if_neg hcb] at hqb
        exact Option.noConfusion hqb
    · rw [if_neg hca] at hqa
      exact Option.noConfusion hqa
  · unfold neighborsCode
    simp only [List.nodup_cons, List.mem_cons, List.mem_singleton, List.not_mem_nil,
      or_false, List.nodup_nil, and_true, not_or, Prod.mk.injEq, not_and]
    refine ⟨⟨by omega, by omega, by omega⟩, ⟨by omega, by omega⟩,
      by intro _; omega, not_false⟩

theorem flood_measure_decreases (w h : Nat) (marked : Finset (Nat × Nat))
    (ns : List (Nat × Nat)) (hnodup : ns.Nodup)
    (hsub : ∀ q ∈ ns, q ∈ gridFinset w h \ marked) :
    (gridFinset w h \ (marked ∪ ns.toFinset)).card + ns.length =
      (gridFinset w h \ marked).card := by
  have hsub2 : ns.toFinset ⊆ gridFinset w h \ marked := by
    intro q hq
    exact hsub q (List.mem_toFinset.mp hq)
  have h1 : gridFinset w h \ (marked ∪ ns.toFinset) =
      (gridFinset w h \ marked) \ ns.toFinset := by
    ext q
    simp only [Finset.mem_sdiff, Finset.mem_union]
    tauto
  have h2 : ((gridFinset w h \ marked) \ ns.toFinset).card =
      (gridFinset w h \ marked).card - ns.toFinset.card := Finset.card_sdiff hsub2
  have h3 : ns.toFinset.card = ns.length := List.toFinset_card_of_nodup hnodup
  have h4 : ns.toFinset.card ≤ (gridFinset w h \ marked).card :=
    Finset.card_le_card hsub2
  rw [h1, h2, h3] at *
  omega

/-- The BFS flood-fill loop of `buildInsideMaskFromAlpha`: pop the queue head,
then mark and enqueue every in-bounds, non-opaque, unmarked neighbour (the
`outside` byte array of the source is modelled as the `Finset` of marked
pixels; the filter is the `!opaque[nidx] && !outside[nidx]` guard).
Terminates because every enqueued pixel is a newly marked canvas pixel. -/
def floodLoop (opaq : Mask) (w h : Nat) :
    Finset (Nat × Nat) → List (Nat × Nat) → Finset (Nat × Nat)
  | marked, [] => marked
  | marked, p :: rest =>
    floodLoop opaq w h
      (marked ∪ ((inBoundsNeighbors w h p.1 p.2).filter
        (fun q => !maskGet opaq w q.1 q.2 && decide (q ∉ marked))).toFinset)
      (rest ++ (inBoundsNeighbors w h p.1 p.2).filter
        (fun q => !maskGet opaq w q.1 q.2 && decide (q ∉ marked)))
termination_by marked queue => 5 * (gridFinset w h \ marked).card + queue.length
decreasing_by
  have hnodup : ((inBoundsNeighbors w h p.1 p.2).filter
      (fun q => !maskGet opaq w q.1 q.2 && decide (q ∉ marked))).Nodup :=
    (inBoundsNeighbors_nodup w h p.1 p.2).filter _
  have hsub : ∀ q ∈ (inBoundsNeighbors w h p.1 p.2).filter
      (fun q => !maskGet opaq w q.1 q.2 && decide (q ∉ marked)),
      q ∈ gridFinset w h \ marked := by
    intro q hq
    have hmem := List.mem_of_mem_filter hq
    have hcond := List.of_mem_filter hq
    simp only [Bool.and_eq_true, decide_eq_true_eq] at hcond
    have hb := mem_inBoundsNeighbors.mp hmem
    rw [Finset.mem_sdiff]
    exact ⟨mem_gridFinset.mpr ⟨hb.1, hb.2.1⟩, hcond.2⟩
  have hkey := flood_measure_decreases w h marked _ hnodup hsub
  simp only [List.length_append, List.length_cons]
  omega

/-- `trySeed` of the flood fill: mark and enqueue a border pixel if it is
non-opaque and not yet marked. -/
def trySeed (opaq : Mask) (w : Nat) (acc : Finset (Nat × Nat) × List (Nat × Nat))
    (p : Nat × Nat) : Finset (Nat × Nat) × List (Nat × Nat) :=
  if !maskGet opaq w p.1 p.2 && decide (p ∉ acc.1) then
    (insert p acc.1, acc.2 ++ [p])
  else acc

/-- The border seeding order of the source: `(x, 0)` and `(x, h-1)` for every
column, then `(0, y)` and `(w-1, y)` for every row. -/
def borderSeeds (w h : Nat) : List (Nat × Nat) :=
  (List.range w).flatMap (fun x => [(x, 0), (x, h - 1)]) ++
    (List.range h).flatMap (fun y => [(0, y), (w - 1, y)])

/-- The `outside` set of `buildInsideMaskFromAlpha`: seed the four border
edges, then run the BFS over non-opaque pixels. -/
def floodOutside (opaq : Mask) (w h : Nat) : Finset (Nat × Nat) :=
  floodLoop opaq w h ((borderSeeds w h).foldl (trySeed opaq w) (∅, [])).1
    ((borderSeeds w h).foldl (trySeed opaq w) (∅, [])).2

theorem floodLoop_subset (opaq : Mask) (w h : Nat) :
    ∀ marked queue, marked ⊆ floodLoop opaq w h marked queue := by
  intro marked queue
  induction marked, queue using floodLoop.induct opaq w h with
  | case1 marked =>
    rw [floodLoop]
  | case2 marked p rest ih =>
    rw [floodLoop]
    exact subset_trans Finset.subset_union_left ih

theorem floodLoop_sound (opaq : Mask) (w h : Nat) (P : Nat × Nat → Prop)
    (hstep : ∀ p q, P p → q ∈ inBoundsNeighbors w h p.1 p.2 →
      maskGet opaq w q.1 q.2 = false → P q) :
    ∀ marked queue, (∀ p ∈ queue, p ∈ marked) → (∀ p ∈ marked, P p) →
      ∀ x ∈ floodLoop opaq w h marked queue, P x := by
  intro marked queue
  induction marked, queue using floodLoop.induct opaq w h with
  | case1 marked =>
    intro _ hm x hx
    rw [floodLoop] at hx
    exact hm x hx
  | case2 marked p rest ih =>
    intro hq hm x hx
    rw [floodLoop] at hx
    refine ih ?_ ?_ x hx
    · intro p2 hp2
      rcases List.mem_append.mp hp2 with hp2 | hp2
      · exact Finset.mem_union_left _ (hq p2 (List.mem_cons_of_mem p hp2))
      · exact Finset.mem_union_right _ (List.mem_toFinset.mpr hp2)
    · intro p2 hp2
      rcases Finset.mem_union.mp hp2 with hp2 | hp2
      · exact hm p2 hp2
      · have hp2l := List.mem_toFinset.mp hp2
        have hmem := List.mem_of_mem_filter hp2l
        have hcond := List.of_mem_filter hp2l
        simp only [Bool.and_eq_true, Bool.not_eq_true', decide_eq_true_eq] at hcond
        exact hstep p p2 (hm p (hq p (List.mem_cons_self p rest))) hmem hcond.1

theorem floodLoop_closed (opaq : Mask) (w h : Nat) :
    ∀ marked queue, (∀ p ∈ queue, p ∈ marked) →
      (∀ p ∈ marked, p ∉ queue → ∀ q ∈ inBoundsNeighbors w h p.1 p.2,
        maskGet opaq w q.1 q.2 = false → q ∈ marked) →
      ∀ p ∈ floodLoop opaq w h marked queue,
        ∀ q ∈ inBoundsNeighbors w h p.1 p.2,
          maskGet opaq w q.1 q.2 = false → q ∈ floodLoop opaq w h marked queue := by
  intro marked queue
  induction marked, queue using floodLoop.induct opaq w h with
  | case1 marked =>
    intro _ hclosed p hp q hqn hqo
    rw [floodLoop] at hp ⊢
    exact hclosed p hp (List.not_mem_nil p) q hqn hqo
  | case2 marked p0 rest ih =>
    intro hq hclosed
    rw [floodLoop]
    apply ih
    · intro p2 hp2
      rcases List.mem_append.mp hp2 with hp2 | hp2
      · exact Finset.mem_union_left _ (hq p2 (List.mem_cons_of_mem p0 hp2))
      · exact Finset.mem_union_right _ (List.mem_toFinset.mpr hp2)
    · intro p2 hp2 hp2nq q hqn hqo
      rcases Finset.mem_union.mp hp2 with hp2m | hp2ns
      · by_cases hp2p0 : p2 = p0
        · subst hp2p0
          by_cases hqm : q ∈ marked
          · exact Finset.mem_union_left _ hqm
          · apply Finset.mem_union_right
            apply List.mem_toFinset.mpr
            apply List.mem_filter.mpr
            refine ⟨hqn, ?_⟩
            simp only [Bool.and_eq_true, Bool.not_eq_true', decide_eq_true_eq]
            exact ⟨hqo, hqm⟩
        · have hp2nq0 : p2 ∉ p0 :: rest := by
            intro hmem
            rcases List.mem_cons.mp hmem with he | ht
            · exact hp2p0 he
            · exact hp2nq (List.mem_append_left _ ht)
          exact Finset.mem_union_left _ (hclosed p2 hp2m hp2nq0 q hqn hqo)
      · exfalso
        exact hp2nq (List.mem_append_right _ (List.mem_toFinset.mp hp2ns))

theorem trySeed_foldl_mem (opaq : Mask) (w : Nat) :
    ∀ (l : List (Nat × Nat)) (acc : Finset (Nat × Nat) × List (Nat × Nat))
      (p : Nat × Nat),
      p ∈ (l.foldl (trySeed opaq w) acc).1 ↔
        p ∈ acc.1 ∨ (p ∈ l ∧ maskGet opaq w p.1 p.2 = false) := by
  intro l
  induction l with
  | nil =>
    intro acc p
    simp
  | cons a t ih =>
    intro acc p
    rw [List.foldl_cons, ih]
    unfold trySeed
    by_cases hc : (!maskGet opaq w a.1 a.2 && decide (a ∉ acc.1)) = true
    · rw [if_pos hc]
      simp only [Bool.and_eq_true, Bool.not_eq_true', decide_eq_true_eq] at hc
      constructor
      · rintro (hp | hp)
        · rcases Finset.mem_insert.mp hp with he | hm
          · subst he
            exact Or.inr ⟨List.mem_cons_self p t, hc.1⟩
          · exact Or.inl hm
        · exact Or.inr ⟨List.mem_cons_of_mem a hp.1, hp.2⟩
      · rintro (hp | hp)
        · exact Or.inl (Finset.mem_insert_of_mem hp)
        · rcases List.mem_cons.mp hp.1 with he | ht
          · subst he
            exact Or.inl (Finset.mem_insert_self p acc.1)
          · exact Or.inr ⟨ht, hp.2⟩
    · rw [if_neg hc]
      simp only [Bool.and_eq_true, Bool.not_eq_true', decide_eq_true_eq, not_and,
        not_not] at hc
      constructor
      · rintro (hp | hp)
        · exact Or.inl hp
        · exact Or.inr ⟨List.mem_cons_of_mem a hp.1, hp.2⟩
      · rintro (hp | hp)
        · exact Or.inl hp
        · rcases List.mem_cons.mp hp.1 with he | ht
          · subst he
            exact Or.inl (hc hp.2)
          · exact Or.inr ⟨ht, hp.2⟩

theorem trySeed_foldl_queue_eq_marked (opaq : Mask) (w : Nat) :
    ∀ (l : List (Nat × Nat)) (acc : Finset (Nat × Nat) × List (Nat × Nat)),
      (∀ p, p ∈ acc.2 ↔ p ∈ acc.1) →
      ∀ p, p ∈ (l.foldl (trySeed opaq w) acc).2 ↔
        p ∈ (l.foldl (trySeed opaq w) acc).1 := by
  intro l
  induction l with
  | nil =>
    intro acc hacc p
    exact hacc p
  | cons a t ih =>
    intro acc hacc p
    rw [List.foldl_cons]
    apply ih
    intro p2
    unfold trySeed
    by_cases hc : (!maskGet opaq w a.1 a.2 && decide (a ∉ acc.1)) = true
    · rw [if_pos hc]
      show p2 ∈ acc.2 ++ [a] ↔ p2 ∈ insert a acc.1
      rw [List.mem_append, List.mem_singleton, Finset.mem_insert, hacc p2]
      tauto
    · rw [if_neg hc]
      exact hacc p2

/-- 4-connected reachability from the canvas border through non-opaque
pixels: the declarative description of the set the flood fill computes. -/
inductive Reach (opaq : Mask) (w h : Nat) : Nat × Nat → Prop where
  | border : ∀ p : Nat × Nat, p.1 < w → p.2 < h →
      (p.1 = 0 ∨ p.1 = w - 1 ∨ p.2 = 0 ∨ p.2 = h - 1) →
      maskGet opaq w p.1 p.2 = false → Reach opaq w h p
  | step : ∀ p q : Nat × Nat, Reach opaq w h p →
      q ∈ inBoundsNeighbors w h p.1 p.2 →
      maskGet opaq w q.1 q.2 = false → Reach opaq w h q

theorem mem_borderSeeds {w h : Nat} (hw : 0 < w) (hh : 0 < h) {p : Nat × Nat} :
    p ∈ borderSeeds w h ↔ p.1 < w ∧ p.2 < h ∧
      (p.1 = 0 ∨ p.1 = w - 1 ∨ p.2 = 0 ∨ p.2 = h - 1) := by
  obtain ⟨x, y⟩ := p
  simp only [borderSeeds, List.mem_append, List.mem_flatMap, List.mem_range,
    List.mem_cons, List.mem_singleton, List.not_mem_nil, or_false, Prod.mk.injEq]
  constructor
  · rintro (⟨x0, hx0, ⟨h1, h2⟩ | ⟨h1, h2⟩⟩ | ⟨y0, hy0, ⟨h1, h2⟩ | ⟨h1, h2⟩⟩) <;> omega
  · rintro ⟨hxw, hyh, hcase⟩
    rcases hcase with h1 | h1 | h1 | h1
    · exact Or.inr ⟨y, hyh, Or.inl ⟨h1, rfl⟩⟩
    · exact Or.inr ⟨y, hyh, Or.inr ⟨h1, rfl⟩⟩
    · exact Or.inl ⟨x, hxw, Or.inl ⟨rfl, h1⟩⟩
    · exact Or.inl ⟨x, hxw, Or.inr ⟨rfl, h1⟩⟩

/-- The flood fill computes exactly 4-connected reachability from the border
over non-opaque pixels. -/
theorem floodOutside_iff_reach (opaq : Mask) (w h : Nat) (hw : 0 < w)
    (hh : 0 < h) (p : Nat × Nat) :
    p ∈ floodOutside opaq w h ↔ Reach opaq w h p := by
  have hqm := trySeed_foldl_queue_eq_marked opaq w (borderSeeds w h) (∅, [])
    (by intro p2; simp)
  constructor
  · intro hp
    unfold floodOutside at hp
    refine floodLoop_sound opaq w h (Reach opaq w h) ?_ _ _ ?_ ?_ p hp
    · intro p1 q hp1 hqn hqo
      exact Reach.step p1 q hp1 hqn hqo
    · intro p1 hp1
      exact (hqm p1).mp hp1
    · intro p1 hp1
      rcases (trySeed_foldl_mem opaq w (borderSeeds w h) (∅, []) p1).mp hp1 with
        hfalse | ⟨hmem, hop⟩
      · simp at hfalse
      · have hb := (mem_borderSeeds hw hh).mp hmem
        exact Reach.border p1 hb.1 hb.2.1 hb.2.2 hop
  · intro hr
    induction hr with
    | border p1 hp1x hp1y hp1b hp1o =>
      unfold floodOutside
      apply floodLoop_subset
      exact (trySeed_foldl_mem opaq w (borderSeeds w h) (∅, []) p1).mpr
        (Or.inr ⟨(mem_borderSeeds hw hh).mpr ⟨hp1x, hp1y, hp1b⟩, hp1o⟩)
    | step p1 q hr1 hqn hqo ih =>
      unfold floodOutside at ih ⊢
      refine floodLoop_closed opaq w h _ _ ?_ ?_ p1 ih q hqn hqo
      · intro p2 hp2
        exact (hqm p2).mp hp2
      · intro p2 hp2m hp2nq
        exact absurd ((hqm p2).mpr hp2m) hp2nq

/-- The opaque mask of `buildInsideMaskFromAlpha`: alpha threshold test
(`a[i*4+3] > alphaThreshold`), then the optional closing (gap sealing). -/
def sealedOpaque (data : List Nat) (w h thr sealPx : Nat) : Mask :=
  if 0 < sealPx then
    closeMaskExact ((List.range (w * h)).map
      (fun i => decide (thr < data.getD (i * 4 + 3) 0))) w h sealPx
  else
    (List.range (w * h)).map (fun i => decide (thr < data.getD (i * 4 + 3) 0))

/-- `buildInsideMaskFromAlpha(imgData, w, h, alphaThreshold, sealGapsPx)`
(part_006 lines 760-832): threshold the alpha channel, seal gaps by
closing, flood fill the non-opaque pixels from the border, and return the
complement (`inside[i] = outside[i] ? 0 : 1`). -/
def buildInsideMaskFromAlpha (data : List Nat) (w h thr sealPx : Nat) : Mask :=
  (List.range (w * h)).map (fun i =>
    !(decide ((i % w, i / w) ∈ floodOutside (sealedOpaque data w h thr sealPx) w h)))

/-- C1: the inside mask built by `buildInsideMaskFromAlpha` is the pointwise
negation of the border flood fill over non-opaque pixels: an in-bounds pixel
is inside exactly when it is not 4-connected-reachable from the canvas
border through non-opaque pixels of the (optionally closed) opaque mask; in
particular every pixel is exactly one of inside/outside, and an enclosed
non-opaque pixel is inside. -/
theorem buildInsideMaskFromAlpha_inside_iff_not_reach (data : List Nat)
    (w h thr sealPx x y : Nat) (hw : 0 < w) (hh : 0 < h) (hx : x < w) (hy : y < h) :
    maskGet (buildInsideMaskFromAlpha data w h thr sealPx) w x y = true ↔
      ¬ Reach (sealedOpaque data w h thr sealPx) w h (x, y) := by
  unfold buildInsideMaskFromAlpha
  rw [maskGet_range_map hx hy, idx_fst hx, idx_snd hx]
  rw [Bool.not_eq_true']
  rw [decide_eq_false_iff_not]
  exact not_congr (floodOutside_iff_reach (sealedOpaque data w h thr sealPx) w h hw hh (x, y))

/-- Witness for C1: the single pixel of an all-transparent 1×1 image is
border-reachable, hence not inside. -/
theorem buildInsideMaskFromAlpha_inside_iff_not_reach_witness :
    maskGet (buildInsideMaskFromAlpha [0, 0, 0, 0] 1 1 8 0) 1 0 0 = false := by
  have h := buildInsideMaskFromAlpha_inside_iff_not_reach [0, 0, 0, 0] 1 1 8 0 0 0
    (by decide) (by decide) (by decide) (by decide)
  have hreach : Reach (sealedOpaque [0, 0, 0, 0] 1 1 8 0) 1 1 (0, 0) :=
    Reach.border (0, 0) (by decide) (by decide) (Or.inl rfl) (by decide)
  cases hcase : maskGet (buildInsideMaskFromAlpha [0, 0, 0, 0] 1 1 8 0) 1 0 0 with
  | false => rfl
  | true => exact absurd hreach (h.mp hcase)
